import Mathlib

/- Shallow embedding of the patternscanner crate (src/lib.rs, src/st.rs,
src/mt.rs).  Strings are modelled as lists of characters and bytes as
natural numbers (u8 values).  A Rust panic -- `slice::windows(0)` and
rayon's `par_windows(0)` abort when the window size is zero -- is modelled
by an outer `Option`: `none` is an abort, `some r` a normal return. -/

/-- Model of `std::num::ParseIntError` (the kinds reachable from
`u8::from_str_radix`). -/
inductive ParseIntError where
  | empty
  | invalidDigit
  | posOverflow
deriving DecidableEq

/-- Model of `PatternScannerError` (src/lib.rs lines 111-124).  The Rust
`InvalidByte` variant stores only the underlying parse error; `ByteLength`
carries the offending token. -/
inductive PatternScannerError where
  | InvalidByte (e : ParseIntError)
  | ByteLength (token : List Char)
  | NonUniquePattern
  | Unknown
deriving DecidableEq

/-- Model of `char::to_digit(16)`: ASCII digits 0-9 (code points 48-57),
lowercase a-f (97-102) and uppercase A-F (65-70). -/
def to_digit_16 (c : Char) : Option Nat :=
  if 48 ≤ c.toNat ∧ c.toNat ≤ 57 then some (c.toNat - 48)
  else if 97 ≤ c.toNat ∧ c.toNat ≤ 102 then some (c.toNat - 87)
  else if 65 ≤ c.toNat ∧ c.toNat ≤ 70 then some (c.toNat - 55)
  else none

/-- Digit-accumulation loop of `u8::from_str_radix(_, 16)`: multiply the
accumulator by 16, add the next digit, and fail with `posOverflow` as soon
as the value leaves the u8 range. -/
def radixLoop : List Char → Nat → Except ParseIntError Nat
  | [], acc => .ok acc
  | c :: rest, acc =>
    match to_digit_16 c with
    | none => .error .invalidDigit
    | some d =>
      if 255 < 16 * acc + d then .error .posOverflow
      else radixLoop rest (16 * acc + d)

/-- Model of `u8::from_str_radix(s, 16)`: empty input is an error, a lone
sign is an error, a leading '+' is stripped (for an unsigned type a '-' is
not stripped and then fails as a non-digit), and the remaining characters
are accumulated in base 16. -/
def from_str_radix_u8_16 (s : List Char) : Except ParseIntError Nat :=
  match s with
  | [] => .error .empty
  | ['+'] => .error .invalidDigit
  | '+' :: rest => radixLoop rest 0
  | _ => radixLoop s 0

/-- Worker for `str::split_whitespace`; `cur` is the current token,
reversed. -/
def split_whitespace_go (cur : List Char) : List Char → List (List Char)
  | [] => if cur.isEmpty then [] else [cur.reverse]
  | c :: rest =>
    if c.isWhitespace then
      if cur.isEmpty then split_whitespace_go [] rest
      else cur.reverse :: split_whitespace_go [] rest
    else split_whitespace_go (c :: cur) rest

/-- Model of `str::split_whitespace`: the maximal runs of non-whitespace
characters, in order; any amount of leading, separating and trailing
whitespace is discarded.  Whitespace is modelled by `Char.isWhitespace`. -/
def split_whitespace (s : List Char) : List (List Char) :=
  split_whitespace_go [] s

/-- The per-token closure inside `create_bytes_from_string` (src/lib.rs
lines 139-151): `?` and `??` are wildcards (`None`), any other token must
have exactly two characters and parse as a base-16 byte.  (Token length is
modelled as character count; the intended pattern alphabet is ASCII, where
this agrees with Rust's byte count.) -/
def compileToken (x : List Char) : Except PatternScannerError (Option Nat) :=
  if x = ['?'] ∨ x = ['?', '?'] then .ok none
  else if x.length ≠ 2 then .error (.ByteLength x)
  else
    match from_str_radix_u8_16 x with
    | .ok b => .ok (some b)
    | .error e => .error (.InvalidByte e)

/-- `Iterator::collect::<Result<Vec<_>, _>>`: stop at the first failing
token, otherwise collect every token result in order. -/
def collectTokens : List (List Char) → Except PatternScannerError (List (Option Nat))
  | [] => .ok []
  | t :: ts =>
    match compileToken t with
    | .error e => .error e
    | .ok v =>
      match collectTokens ts with
      | .error e => .error e
      | .ok vs => .ok (v :: vs)

/-- Model of `create_bytes_from_string` (src/lib.rs lines 133-153). -/
def create_bytes_from_string (pattern : List Char) :
    Except PatternScannerError (List (Option Nat)) :=
  collectTokens (split_whitespace pattern)

/-- Model of `slice::windows(n)` for `n ≥ 1`: every contiguous run of `n`
elements, in order.  (For `n = 0` Rust aborts; the scan functions below
model that case separately.) -/
def windows (l : List Nat) (n : Nat) : List (List Nat) :=
  (List.range (l.length + 1 - n)).map (fun i => (l.drop i).take n)

/-- The match predicate shared by every scan in the crate: zip the window
with the compiled pattern and require `pattern_byte.is_none() ||
Some(*byte) == *pattern_byte` at every position. -/
def windowMatches (window : List Nat) (pb : List (Option Nat)) : Bool :=
  (window.zip pb).all (fun bp => bp.2.isNone || some bp.1 == bp.2)

/-- The offsets of all matching windows (`windows`/`par_windows` →
`enumerate` → `filter_map`), the common core of `st::pattern_scan_all`,
`mt::pattern_scan_all` and `PatternScanner::scan_all_with_bytes`. -/
def matchOffsets (bytes : List Nat) (pb : List (Option Nat)) : List Nat :=
  (windows bytes pb.length).enum.filterMap
    (fun iw => if windowMatches iw.2 pb then some iw.1 else none)

/-- Model of `st::pattern_scan_all` (src/st.rs lines 73-93).  `none`
models the abort of `windows(0)` on an empty compiled pattern. -/
def st_pattern_scan_all (bytes : List Nat) (pattern : List Char) :
    Option (Except PatternScannerError (List Nat)) :=
  match create_bytes_from_string pattern with
  | .error e => some (.error e)
  | .ok pb =>
    if pb.length = 0 then none else some (.ok (matchOffsets bytes pb))

/-- Model of `st::pattern_scan` (src/st.rs lines 31-42): the position of
the first matching window, with no uniqueness check. -/
def st_pattern_scan (bytes : List Nat) (pattern : List Char) :
    Option (Except PatternScannerError (Option Nat)) :=
  match create_bytes_from_string pattern with
  | .error e => some (.error e)
  | .ok pb =>
    if pb.length = 0 then none
    else some (.ok ((windows bytes pb.length).findIdx? (fun w => windowMatches w pb)))

/-- The merge step of `mt::pattern_scan_all`: `Vec::sort` on the collected
offsets, modelled by insertion sort (on naturals every correct ascending
sort returns the same list). -/
def mt_sort_merge (collected : List Nat) : List Nat :=
  List.insertionSort (fun a b => a ≤ b) collected

/-- Model of `mt::pattern_scan_all` (src/mt.rs lines 93-119): collect the
matching offsets, then sort.  `none` models the abort of `par_windows(0)`
on an empty compiled pattern. -/
def mt_pattern_scan_all (bytes : List Nat) (pattern : List Char) :
    Option (Except PatternScannerError (List Nat)) :=
  match create_bytes_from_string pattern with
  | .error e => some (.error e)
  | .ok pb =>
    if pb.length = 0 then none
    else some (.ok (mt_sort_merge (matchOffsets bytes pb)))

/-- Model of `PatternScanner::scan_all_with_bytes` (src/lib.rs lines
46-70).  rayon's collect into a `Vec` preserves the source order of the
surviving items, so the returned list is the match offsets in scan
order. -/
def scan_all_with_bytes (bytes : List Nat) (pattern : List Char) :
    Option (Except PatternScannerError (List Nat)) :=
  match create_bytes_from_string pattern with
  | .error e => some (.error e)
  | .ok pb =>
    if pb.length = 0 then none else some (.ok (matchOffsets bytes pb))

/-- Model of `PatternScanner::scan_with_bytes` (src/lib.rs lines 23-38):
run the all-matches scan, fail when more than one offset was found,
otherwise return the first offset if any. -/
def scan_with_bytes (bytes : List Nat) (pattern : List Char) :
    Option (Except PatternScannerError (Option Nat)) :=
  match scan_all_with_bytes bytes pattern with
  | none => none
  | some (.error e) => some (.error e)
  | some (.ok results) =>
    if 1 < results.length then some (.error .NonUniquePattern)
    else some (.ok results.head?)

/-- Spec-side match predicate, following the specification's words: the
pattern matches the buffer at offset `i` when every position `k` of the
pattern is a wildcard or names exactly the byte `buffer[i + k]`. -/
def specMatchAt (bytes : List Nat) (pb : List (Option Nat)) (i : Nat) : Prop :=
  ∀ k, k < pb.length → ∀ b, pb.getD k none = some b → bytes.getD (i + k) 0 = b

/-- A list made of whitespace characters only. -/
def wsList (l : List Char) : Bool :=
  l.all (fun c => c.isWhitespace)

/-- A non-empty list of non-whitespace characters (what
`split_whitespace` returns as a token). -/
def tokenChars (l : List Char) : Bool :=
  !l.isEmpty && l.all (fun c => !c.isWhitespace)

/-- Rebuild a pattern string from tokens, each followed by its run of
whitespace. -/
def joinWS : List (List Char × List Char) → List Char
  | [] => []
  | (t, w) :: rest => t ++ w ++ joinWS rest

/-- The whitespace runs of a token/whitespace list are genuine separators:
each run is all whitespace, and every run except the trailing one is
non-empty. -/
def sepOK : List (List Char × List Char) → Bool
  | [] => true
  | [(_, w)] => wsList w
  | (_, w) :: rest => wsList w && !w.isEmpty && sepOK rest

/-- A token accepted by the compiler: the wildcards `?` and `??`, or two
hexadecimal digits. -/
def validToken (t : List Char) : Bool :=
  (t == ['?']) || (t == ['?', '?']) ||
    (match t with
     | [c1, c2] => (to_digit_16 c1).isSome && (to_digit_16 c2).isSome
     | _ => false)

/-- The mask entry a valid token compiles to: `none` for the wildcards,
the base-16 value for a two-digit token. -/
def tokenValue (t : List Char) : Option Nat :=
  if t = ['?'] ∨ t = ['?', '?'] then none
  else
    match t with
    | [c1, c2] => some (16 * (to_digit_16 c1).getD 0 + (to_digit_16 c2).getD 0)
    | _ => none

/-- Recognises a `ByteLength` failure of the compiler. -/
def resultIsByteLength : Except PatternScannerError (List (Option Nat)) → Bool
  | .error (.ByteLength _) => true
  | _ => false

deriving instance DecidableEq for Except

lemma filterMap_if_eq_filter {α : Type _} (q : α → Bool) (l : List α) :
    (l.filterMap fun a => if q a then some a else none) = l.filter q := by
  induction l with
  | nil => rfl
  | cons a l ih =>
    by_cases h : q a <;> simp [List.filterMap_cons, List.filter_cons, h, ih]

lemma zip_self_map {α β : Type _} (l : List α) (f : α → β) :
    l.zip (l.map f) = l.map (fun x => (x, f x)) := by
  induction l with
  | nil => rfl
  | cons a l ih => simp [ih]

/-- Bridge: the `windows → enumerate → filter_map` pipeline is a filter of
the candidate offset range. -/
lemma matchOffsets_eq_filter (bytes : List Nat) (pb : List (Option Nat)) :
    matchOffsets bytes pb =
      (List.range (bytes.length + 1 - pb.length)).filter
        (fun i => windowMatches ((bytes.drop i).take pb.length) pb) := by
  unfold matchOffsets windows
  rw [List.enum_eq_zip_range, List.length_map, List.length_range, zip_self_map,
    List.filterMap_map, ← filterMap_if_eq_filter]
  rfl

lemma matchOffsets_pairwise (bytes : List Nat) (pb : List (Option Nat)) :
    (matchOffsets bytes pb).Pairwise (· < ·) := by
  rw [matchOffsets_eq_filter]
  exact (List.pairwise_lt_range _).filter _

lemma matchOffsets_sorted_le (bytes : List Nat) (pb : List (Option Nat)) :
    List.Sorted (fun a b => a ≤ b) (matchOffsets bytes pb) :=
  (matchOffsets_pairwise bytes pb).imp Nat.le_of_lt

lemma windowMatches_nil_left (pb : List (Option Nat)) : windowMatches [] pb = true := by
  simp [windowMatches]

lemma windowMatches_cons (a : Nat) (w : List Nat) (p : Option Nat) (pb : List (Option Nat)) :
    windowMatches (a :: w) (p :: pb) = ((p.isNone || some a == p) && windowMatches w pb) := by
  simp [windowMatches]

lemma forall_lt_succ_getD (p : Option Nat) (pbs : List (Option Nat)) (a : Nat) (ws : List Nat) :
    (∀ k, k < pbs.length + 1 → ∀ b, (p :: pbs).getD k none = some b → (a :: ws).getD k 0 = b) ↔
      ((∀ b, p = some b → a = b) ∧
        ∀ k, k < pbs.length → ∀ b, pbs.getD k none = some b → ws.getD k 0 = b) := by
  constructor
  · intro h
    exact ⟨fun b hb => h 0 (Nat.succ_pos _) b hb,
      fun k hk b hb => h (k + 1) (Nat.succ_lt_succ hk) b hb⟩
  · rintro ⟨h0, h1⟩ k hk b hb
    cases k with
    | zero => exact h0 b hb
    | succ k => exact h1 k (Nat.lt_of_succ_lt_succ hk) b hb

/-- The zipped match predicate, characterised positionally (for windows of
the pattern's length). -/
lemma windowMatches_iff_specMatch :
    ∀ (pb : List (Option Nat)) (w : List Nat), w.length = pb.length →
      (windowMatches w pb = true ↔
        ∀ k, k < pb.length → ∀ b, pb.getD k none = some b → w.getD k 0 = b) := by
  intro pb
  induction pb with
  | nil =>
    intro w _
    simp [windowMatches]
  | cons p pbs ih =>
    intro w hw
    cases w with
    | nil => simp at hw
    | cons a ws =>
      simp only [List.length_cons, Nat.succ.injEq] at hw
      rw [windowMatches_cons, Bool.and_eq_true, List.length_cons, forall_lt_succ_getD,
        ih ws hw]
      constructor
      · rintro ⟨hhead, htail⟩
        refine ⟨?_, htail⟩
        intro b hb
        subst hb
        simpa using hhead
      · rintro ⟨hhead, htail⟩
        refine ⟨?_, htail⟩
        cases p with
        | none => simp
        | some b0 => simpa using hhead b0 rfl

lemma window_length (bytes : List Nat) (n i : Nat) (hin : i + n ≤ bytes.length) :
    ((bytes.drop i).take n).length = n := by
  simp only [List.length_take, List.length_drop]
  omega

lemma window_getD (bytes : List Nat) (n i k : Nat) (hk : k < n) :
    ((bytes.drop i).take n).getD k 0 = bytes.getD (i + k) 0 := by
  rw [List.getD_eq_getElem?_getD, List.getD_eq_getElem?_getD,
    List.getElem?_take_of_lt hk, List.getElem?_drop]

/-- Membership in `matchOffsets`, characterised by the specification's
match predicate. -/
lemma mem_matchOffsets_iff (bytes : List Nat) (pb : List (Option Nat)) (i : Nat)
    (h1 : 1 ≤ pb.length) (h2 : pb.length ≤ bytes.length) :
    i ∈ matchOffsets bytes pb ↔
      (i ≤ bytes.length - pb.length ∧ specMatchAt bytes pb i) := by
  rw [matchOffsets_eq_filter, List.mem_filter, List.mem_range]
  constructor
  · rintro ⟨hlt, hm⟩
    have hin : i + pb.length ≤ bytes.length := by omega
    refine ⟨by omega, ?_⟩
    intro k hk b hb
    have := (windowMatches_iff_specMatch pb _ (window_length bytes pb.length i hin)).1 hm k hk b hb
    rwa [window_getD bytes pb.length i k hk] at this
  · rintro ⟨hle, hm⟩
    have hin : i + pb.length ≤ bytes.length := by omega
    refine ⟨by omega, ?_⟩
    rw [windowMatches_iff_specMatch pb _ (window_length bytes pb.length i hin)]
    intro k hk b hb
    rw [window_getD bytes pb.length i k hk]
    exact hm k hk b hb

lemma windowMatches_set_none :
    ∀ (pb : List (Option Nat)) (w : List Nat) (j : Nat),
      windowMatches w pb = true → windowMatches w (pb.set j none) = true := by
  intro pb
  induction pb with
  | nil =>
    intro w j h
    simpa using h
  | cons p pbs ih =>
    intro w j h
    cases w with
    | nil => exact windowMatches_nil_left _
    | cons a ws =>
      rw [windowMatches_cons, Bool.and_eq_true] at h
      cases j with
      | zero =>
        rw [List.set_cons_zero, windowMatches_cons]
        simp [h.2]
      | succ j =>
        rw [List.set_cons_succ, windowMatches_cons]
        simp [h.1, ih ws j h.2]

lemma filter_sublist_of_imp {α : Type _} (p q : α → Bool) (h : ∀ a, p a = true → q a = true)
    (l : List α) : (l.filter p).Sublist (l.filter q) := by
  induction l with
  | nil => simp
  | cons a l ih =>
    by_cases hp : p a = true
    · rw [List.filter_cons_of_pos hp, List.filter_cons_of_pos (h a hp)]
      exact ih.cons₂ a
    · rw [List.filter_cons_of_neg (by simpa using hp)]
      by_cases hq : q a = true
      · rw [List.filter_cons_of_pos hq]
        exact ih.cons a
      · rw [List.filter_cons_of_neg (by simpa using hq)]
        exact ih

/-- C1.  For every buffer and every successfully compiled pattern with
`1 ≤ len(pattern) ≤ len(buffer)`, `st::pattern_scan_all` returns exactly
the offsets `i ≤ len(buffer) - len(pattern)` at which every non-wildcard
pattern position equals the buffer byte below it, and no other offset. -/
theorem c1_scan_all_offsets (bytes : List Nat) (pattern : List Char)
    (pb : List (Option Nat)) (i : Nat)
    (hc : create_bytes_from_string pattern = .ok pb)
    (h1 : 1 ≤ pb.length) (h2 : pb.length ≤ bytes.length) :
    ∃ l, st_pattern_scan_all bytes pattern = some (.ok l) ∧
      (i ∈ l ↔ (i ≤ bytes.length - pb.length ∧ specMatchAt bytes pb i)) := by
  refine ⟨matchOffsets bytes pb, ?_, mem_matchOffsets_iff bytes pb i h1 h2⟩
  unfold st_pattern_scan_all
  rw [hc]
  simp only [if_neg (by omega : ¬ pb.length = 0)]

theorem c1_scan_all_offsets_witness :
    ∃ l, st_pattern_scan_all [0, 51, 53] ("33 35".data) = some (.ok l) ∧
      ((1 : Nat) ∈ l ↔
        ((1 : Nat) ≤ [0, 51, 53].length - ([some 51, some 53] : List (Option Nat)).length ∧
          specMatchAt [0, 51, 53] [some 51, some 53] 1)) :=
  c1_scan_all_offsets [0, 51, 53] ("33 35".data) [some 51, some 53] 1
    (by decide) (by decide) (by decide)

/-- C2.  For every buffer and pattern string the parallel all-matches scan
(`mt::pattern_scan_all`) returns the same result as the sequential one
(`st::pattern_scan_all`): the same compile error, the same abort on an
empty compiled pattern, and otherwise the identical ordered offset list. -/
theorem c2_parallel_sequential_eq (bytes : List Nat) (pattern : List Char) :
    mt_pattern_scan_all bytes pattern = st_pattern_scan_all bytes pattern := by
  unfold mt_pattern_scan_all st_pattern_scan_all
  cases hc : create_bytes_from_string pattern with
  | error e => rfl
  | ok pb =>
    by_cases h0 : pb.length = 0
    · simp [h0]
    · simp only [if_neg h0]
      rw [mt_sort_merge, List.Sorted.insertionSort_eq (matchOffsets_sorted_le bytes pb)]

/-- C8.  Replacing any exact-byte position of the pattern by a wildcard
never shrinks the set of offsets the all-matches scan returns: the
original offsets are a subset of the relaxed ones, and the match count is
monotone. -/
theorem c8_wildcard_monotone (bytes : List Nat) (pb : List (Option Nat)) (j : Nat)
    (hj : j < pb.length) (hb : pb.getD j none ≠ none) :
    (∀ i ∈ matchOffsets bytes pb, i ∈ matchOffsets bytes (pb.set j none)) ∧
      (matchOffsets bytes pb).length ≤ (matchOffsets bytes (pb.set j none)).length := by
  have hlen : (pb.set j none).length = pb.length := List.length_set ..
  have hsub : (matchOffsets bytes pb).Sublist (matchOffsets bytes (pb.set j none)) := by
    rw [matchOffsets_eq_filter, matchOffsets_eq_filter, hlen]
    exact filter_sublist_of_imp _ _ (fun i hi => windowMatches_set_none pb _ j hi) _
  exact ⟨fun i hi => hsub.subset hi, hsub.length_le⟩

theorem c8_wildcard_monotone_witness :
    (∀ i ∈ matchOffsets [1, 2, 1, 3] [some 1, some 2],
        i ∈ matchOffsets [1, 2, 1, 3] (([some 1, some 2] : List (Option Nat)).set 1 none)) ∧
      (matchOffsets [1, 2, 1, 3] [some 1, some 2]).length ≤
        (matchOffsets [1, 2, 1, 3] (([some 1, some 2] : List (Option Nat)).set 1 none)).length :=
  c8_wildcard_monotone [1, 2, 1, 3] [some 1, some 2] 1 (by decide) (by decide)

lemma findIdx?_range_filter :
    ∀ (N : Nat) (q : Nat → Bool),
      (List.range N).findIdx? q = ((List.range N).filter q).head? := by
  intro N
  induction N with
  | zero => intro q; rfl
  | succ n ih =>
    intro q
    rw [List.range_succ_eq_map, List.findIdx?_cons]
    by_cases h : q 0 = true
    · rw [if_pos h, List.filter_cons_of_pos h]
      rfl
    · rw [if_neg h, List.filter_cons_of_neg (by simpa using h), List.findIdx?_succ,
        List.findIdx?_map, ih (q ∘ Nat.succ), List.filter_map, List.head?_map]

/-- `Iterator::position` over the window list is the head of the
all-matches offset list. -/
lemma st_findIdx_eq_head (bytes : List Nat) (pb : List (Option Nat)) :
    (windows bytes pb.length).findIdx? (fun w => windowMatches w pb) =
      (matchOffsets bytes pb).head? := by
  rw [matchOffsets_eq_filter]
  unfold windows
  rw [List.findIdx?_map, findIdx?_range_filter]
  rfl

/-- C10.  `st::pattern_scan` performs no uniqueness check: for a pattern
that compiles with `1 ≤ len(pattern) ≤ len(buffer)` it returns `Ok` of the
head of the all-matches offset list -- the lowest matching offset when any
match exists (even when several exist), `None` when none exists -- and it
never returns an error. -/
theorem c10_st_scan_first (bytes : List Nat) (pattern : List Char) (pb : List (Option Nat))
    (hc : create_bytes_from_string pattern = .ok pb)
    (h1 : 1 ≤ pb.length) (h2 : pb.length ≤ bytes.length) :
    st_pattern_scan bytes pattern = some (.ok ((matchOffsets bytes pb).head?)) ∧
      (matchOffsets bytes pb = [] → st_pattern_scan bytes pattern = some (.ok none)) ∧
      (∀ i, (matchOffsets bytes pb).head? = some i →
        i ∈ matchOffsets bytes pb ∧ ∀ j ∈ matchOffsets bytes pb, i ≤ j) ∧
      (∀ e, st_pattern_scan bytes pattern ≠ some (.error e)) := by
  have hmain : st_pattern_scan bytes pattern = some (.ok ((matchOffsets bytes pb).head?)) := by
    unfold st_pattern_scan
    rw [hc]
    simp only [if_neg (by omega : ¬ pb.length = 0)]
    rw [st_findIdx_eq_head]
  refine ⟨hmain, ?_, ?_, ?_⟩
  · intro h
    rw [hmain, h]
    rfl
  · intro i hi
    cases hl : matchOffsets bytes pb with
    | nil =>
      rw [hl] at hi
      simp at hi
    | cons a t =>
      rw [hl] at hi
      simp only [List.head?_cons, Option.some.injEq] at hi
      subst hi
      have hp := matchOffsets_pairwise bytes pb
      rw [hl, List.pairwise_cons] at hp
      refine ⟨List.mem_cons_self a t, ?_⟩
      intro j hj
      rcases List.mem_cons.1 hj with h | h
      · omega
      · exact Nat.le_of_lt (hp.1 j h)
  · intro e he
    rw [hmain] at he
    simp at he

theorem c10_st_scan_first_witness :
    st_pattern_scan [0, 51, 53, 51, 53] ("33 35".data) =
        some (.ok ((matchOffsets [0, 51, 53, 51, 53] [some 51, some 53]).head?)) ∧
      (matchOffsets [0, 51, 53, 51, 53] [some 51, some 53] = [] →
        st_pattern_scan [0, 51, 53, 51, 53] ("33 35".data) = some (.ok none)) ∧
      (∀ i, (matchOffsets [0, 51, 53, 51, 53] [some 51, some 53]).head? = some i →
        i ∈ matchOffsets [0, 51, 53, 51, 53] [some 51, some 53] ∧
          ∀ j ∈ matchOffsets [0, 51, 53, 51, 53] [some 51, some 53], i ≤ j) ∧
      (∀ e, st_pattern_scan [0, 51, 53, 51, 53] ("33 35".data) ≠ some (.error e)) :=
  c10_st_scan_first [0, 51, 53, 51, 53] ("33 35".data) [some 51, some 53]
    (by decide) (by decide) (by decide)

/-- C4.  When the all-matches scan returns a list of offsets,
`PatternScanner::scan_with_bytes` returns `Ok(None)` for zero offsets,
`Ok(Some(offset))` for exactly one, and the `NonUniquePattern` error for
two or more. -/
theorem c4_uniqueness_check (bytes : List Nat) (pattern : List Char) (l : List Nat)
    (h : scan_all_with_bytes bytes pattern = some (.ok l)) :
    (l = [] → scan_with_bytes bytes pattern = some (.ok none)) ∧
      (∀ i, l = [i] → scan_with_bytes bytes pattern = some (.ok (some i))) ∧
      (2 ≤ l.length → scan_with_bytes bytes pattern = some (.error .NonUniquePattern)) := by
  unfold scan_with_bytes
  rw [h]
  dsimp only
  refine ⟨?_, ?_, ?_⟩
  · intro hl
    subst hl
    rfl
  · intro i hl
    subst hl
    rfl
  · intro hl
    rw [if_pos (show 1 < l.length by omega)]

theorem c4_uniqueness_check_witness :
    scan_with_bytes [51, 53, 51, 53] ("33 35".data) = some (.error .NonUniquePattern) :=
  (c4_uniqueness_check [51, 53, 51, 53] ("33 35".data) [0, 2] (by decide)).2.2 (by decide)

/-- C3 counterexample.  An empty pattern string compiles successfully to an
empty compiled pattern, and then every all-matches scan aborts
(`windows(0)` / `par_windows(0)` in Rust), modelled by `none`: the scan
does not return an empty `Ok` result as the claim states. -/
theorem c3_empty_pattern_cex :
    create_bytes_from_string [] = .ok [] ∧
      st_pattern_scan_all [0] [] = none ∧
      mt_pattern_scan_all [0] [] = none ∧
      scan_all_with_bytes [0] [] = none ∧
      st_pattern_scan_all [0] [] ≠ some (.ok []) := by
  exact ⟨rfl, rfl, rfl, rfl, by decide⟩

/-- C3 amended.  For a successfully compiled pattern: when the compiled
pattern is non-empty and longer than the buffer every all-matches scan
returns an empty `Ok` result (no error); when the compiled pattern is
empty (e.g. an empty or all-whitespace pattern string) the scans abort
(`windows(0)`), modelled by `none`. -/
theorem c3_len_mismatch_amended (bytes : List Nat) (pattern : List Char)
    (pb : List (Option Nat)) (hc : create_bytes_from_string pattern = .ok pb) :
    (pb.length ≠ 0 → bytes.length < pb.length →
      st_pattern_scan_all bytes pattern = some (.ok []) ∧
        mt_pattern_scan_all bytes pattern = some (.ok []) ∧
        scan_all_with_bytes bytes pattern = some (.ok [])) ∧
      (pb.length = 0 →
        st_pattern_scan_all bytes pattern = none ∧
          mt_pattern_scan_all bytes pattern = none ∧
          scan_all_with_bytes bytes pattern = none) := by
  have hm : bytes.length < pb.length → matchOffsets bytes pb = [] := by
    intro hlt
    rw [matchOffsets_eq_filter]
    have hz : bytes.length + 1 - pb.length = 0 := by omega
    rw [hz]
    rfl
  constructor
  · intro h0 hlt
    unfold st_pattern_scan_all mt_pattern_scan_all scan_all_with_bytes
    rw [hc]
    simp only [if_neg h0, hm hlt]
    refine ⟨?_, ?_, ?_⟩ <;> trivial
  · intro h0
    unfold st_pattern_scan_all mt_pattern_scan_all scan_all_with_bytes
    rw [hc]
    simp only [if_pos h0]
    refine ⟨?_, ?_, ?_⟩ <;> trivial

theorem c3_len_mismatch_witness :
    (st_pattern_scan_all [0] ("AA BB".data) = some (.ok []) ∧
        mt_pattern_scan_all [0] ("AA BB".data) = some (.ok []) ∧
        scan_all_with_bytes [0] ("AA BB".data) = some (.ok [])) ∧
      (st_pattern_scan_all [7] ("  ".data) = none ∧
        mt_pattern_scan_all [7] ("  ".data) = none ∧
        scan_all_with_bytes [7] ("  ".data) = none) :=
  ⟨(c3_len_mismatch_amended [0] ("AA BB".data) [some 170, some 187] (by decide)).1
      (by decide) (by decide),
    (c3_len_mismatch_amended [7] ("  ".data) [] (by decide)).2 (by decide)⟩

/-- C9.  The all-matches scan is deterministic and its output strictly
ascending with no duplicates: whatever order the parallel workers deliver
the collected offsets in (any permutation of the match set), the sorted
merge of `mt::pattern_scan_all` is the same strictly increasing list, and
`PatternScanner::scan_all_with_bytes` only ever returns strictly
increasing lists. -/
theorem c9_sorted_deterministic (bytes : List Nat) (pattern : List Char)
    (pb : List (Option Nat)) (l1 l2 : List Nat)
    (hc : create_bytes_from_string pattern = .ok pb)
    (h1 : l1.Perm (matchOffsets bytes pb)) (h2 : l2.Perm (matchOffsets bytes pb)) :
    mt_sort_merge l1 = mt_sort_merge l2 ∧
      (mt_sort_merge l1).Pairwise (· < ·) ∧
      (pb.length ≠ 0 → mt_pattern_scan_all bytes pattern = some (.ok (mt_sort_merge l1))) ∧
      (∀ l, scan_all_with_bytes bytes pattern = some (.ok l) → l.Pairwise (· < ·)) := by
  have key : ∀ l : List Nat, l.Perm (matchOffsets bytes pb) →
      mt_sort_merge l = matchOffsets bytes pb := by
    intro l hl
    exact List.eq_of_perm_of_sorted ((List.perm_insertionSort _ l).trans hl)
      (List.sorted_insertionSort _ l) (matchOffsets_sorted_le bytes pb)
  have k1 := key l1 h1
  have k2 := key l2 h2
  refine ⟨k1.trans k2.symm, ?_, ?_, ?_⟩
  · rw [k1]
    exact matchOffsets_pairwise bytes pb
  · intro h0
    unfold mt_pattern_scan_all
    rw [hc]
    simp only [if_neg h0]
    rw [key (matchOffsets bytes pb) (List.Perm.refl _), k1]
  · intro l hl
    unfold scan_all_with_bytes at hl
    rw [hc] at hl
    dsimp only at hl
    by_cases h0 : pb.length = 0
    · rw [if_pos h0] at hl
      cases hl
    · rw [if_neg h0] at hl
      simp only [Option.some.injEq, Except.ok.injEq] at hl
      rw [← hl]
      exact matchOffsets_pairwise bytes pb

theorem c9_sorted_deterministic_witness :
    mt_sort_merge [2, 0] = mt_sort_merge [0, 2] ∧
      (mt_sort_merge [2, 0]).Pairwise (· < ·) ∧
      (([some 51, some 53] : List (Option Nat)).length ≠ 0 →
        mt_pattern_scan_all [51, 53, 51, 53] ("33 35".data) =
          some (.ok (mt_sort_merge [2, 0]))) ∧
      (∀ l, scan_all_with_bytes [51, 53, 51, 53] ("33 35".data) = some (.ok l) →
        l.Pairwise (· < ·)) :=
  c9_sorted_deterministic [51, 53, 51, 53] ("33 35".data) [some 51, some 53] [2, 0] [0, 2]
    (by decide) (by decide) (by decide)

lemma go_ws_nil : ∀ (w : List Char), wsList w = true → split_whitespace_go [] w = [] := by
  intro w
  induction w with
  | nil =>
    intro _
    rfl
  | cons c w ih =>
    intro hw
    simp only [wsList, List.all_cons, Bool.and_eq_true] at hw
    simp only [split_whitespace_go, hw.1, if_true, List.isEmpty_nil]
    exact ih hw.2

lemma go_ws_skip : ∀ (w s : List Char), wsList w = true →
    split_whitespace_go [] (w ++ s) = split_whitespace_go [] s := by
  intro w
  induction w with
  | nil =>
    intro s _
    rfl
  | cons c w ih =>
    intro s hw
    simp only [wsList, List.all_cons, Bool.and_eq_true] at hw
    simp only [List.cons_append, split_whitespace_go, hw.1, if_true, List.isEmpty_nil]
    exact ih s hw.2

lemma go_token : ∀ (t : List Char), t.all (fun c => !c.isWhitespace) = true →
    ∀ (cur s : List Char),
      split_whitespace_go cur (t ++ s) = split_whitespace_go (t.reverse ++ cur) s := by
  intro t
  induction t with
  | nil =>
    intro _ cur s
    rfl
  | cons c t ih =>
    intro ht cur s
    simp only [List.all_cons, Bool.and_eq_true, Bool.not_eq_true'] at ht
    simp only [List.cons_append, split_whitespace_go, ht.1, Bool.false_eq_true, if_false,
      List.append_eq]
    rw [ih (by simp only [List.all_eq_true] at ht ⊢; exact fun a ha => ht.2 a ha) (c :: cur) s]
    simp [List.append_assoc]

lemma go_emit_end (w cur : List Char) (hw : wsList w = true) (hcur : cur ≠ []) :
    split_whitespace_go cur w = [cur.reverse] := by
  cases w with
  | nil =>
    cases cur with
    | nil => exact absurd rfl hcur
    | cons a as => rfl
  | cons c w =>
    simp only [wsList, List.all_cons, Bool.and_eq_true] at hw
    cases cur with
    | nil => exact absurd rfl hcur
    | cons a as =>
      simp only [split_whitespace_go, hw.1, if_true, List.isEmpty_cons, Bool.false_eq_true,
        if_false]
      rw [go_ws_nil w hw.2]

/-- `split_whitespace` recovers the tokens of a string built by joining
non-empty whitespace-free tokens with whitespace separators (arbitrary
leading and trailing whitespace allowed, separators between tokens
non-empty). -/
lemma split_whitespace_join : ∀ (pairs : List (List Char × List Char)) (lead : List Char),
    wsList lead = true → sepOK pairs = true →
    (∀ p ∈ pairs, tokenChars p.1 = true) →
    split_whitespace (lead ++ joinWS pairs) = pairs.map Prod.fst := by
  intro pairs
  induction pairs with
  | nil =>
    intro lead hlead _ _
    simp only [joinWS, List.append_nil, List.map_nil]
    exact go_ws_nil lead hlead
  | cons p rest ih =>
    intro lead hlead hsep htok
    obtain ⟨t, w⟩ := p
    have htok_t : tokenChars t = true := htok (t, w) (List.mem_cons_self _ _)
    simp only [tokenChars, Bool.and_eq_true, Bool.not_eq_true'] at htok_t
    have ht_ne : t ≠ [] := by
      intro h
      subst h
      simp at htok_t
    have hrevne : t.reverse ≠ [] := by
      intro h
      apply ht_ne
      have h2 := congrArg List.reverse h
      simpa using h2
    have hrev : t.reverse.isEmpty = false := by
      cases hx : t.reverse with
      | nil => exact absurd hx hrevne
      | cons a b => rfl
    show split_whitespace_go [] (lead ++ (t ++ w ++ joinWS rest)) =
      ((t, w) :: rest).map Prod.fst
    rw [go_ws_skip lead _ hlead, List.append_assoc t w (joinWS rest),
      go_token t htok_t.2 [] (w ++ joinWS rest), List.append_nil]
    cases rest with
    | nil =>
      have hw : wsList w = true := by simpa [sepOK] using hsep
      simp only [joinWS, List.append_nil, List.map_cons, List.map_nil]
      rw [go_emit_end w t.reverse hw hrevne, List.reverse_reverse]
    | cons q rs =>
      have hsep' : (wsList w = true ∧ ¬w = []) ∧ sepOK (q :: rs) = true := by
        simpa [sepOK, Bool.and_eq_true, Bool.not_eq_true'] using hsep
      obtain ⟨⟨hw, hwne⟩, hrest⟩ := hsep'
      cases w with
      | nil => exact absurd rfl hwne
      | cons cw ws =>
        simp only [wsList, List.all_cons, Bool.and_eq_true] at hw
        simp only [List.cons_append, split_whitespace_go, hw.1, if_true, hrev,
          Bool.false_eq_true, if_false, List.reverse_reverse, List.append_eq]
        rw [go_ws_skip ws _ hw.2]
        have hmap := ih [] rfl hrest (fun p hp => htok p (List.mem_cons_of_mem _ hp))
        simp only [List.nil_append] at hmap
        rw [split_whitespace] at hmap
        rw [hmap]
        simp

lemma to_digit_16_le (c : Char) (d : Nat) (h : to_digit_16 c = some d) : d ≤ 15 := by
  unfold to_digit_16 at h
  split at h
  next hc =>
    simp only [Option.some.injEq] at h
    omega
  next =>
    split at h
    next hc =>
      simp only [Option.some.injEq] at h
      omega
    next =>
      split at h
      next hc =>
        simp only [Option.some.injEq] at h
        omega
      next => cases h

lemma to_digit_16_not_ws (c : Char) (d : Nat) (h : to_digit_16 c = some d) :
    c.isWhitespace = false := by
  cases hw : c.isWhitespace
  · rfl
  · exfalso
    have hn : c.toNat = 32 ∨ c.toNat = 9 ∨ c.toNat = 13 ∨ c.toNat = 10 := by
      simp only [Char.isWhitespace, Bool.or_eq_true, decide_eq_true_eq] at hw
      rcases hw with ((h1 | h1) | h1) | h1 <;> subst h1 <;> simp
    unfold to_digit_16 at h
    rcases hn with h1 | h1 | h1 | h1 <;>
      rw [if_neg (by omega), if_neg (by omega), if_neg (by omega)] at h <;> cases h

lemma qm_to_digit : to_digit_16 '?' = none := by decide

lemma validToken_tokenChars (t : List Char) (h : validToken t = true) :
    tokenChars t = true := by
  simp only [validToken, Bool.or_eq_true, beq_iff_eq] at h
  rcases h with (h | h) | h
  · subst h
    decide
  · subst h
    decide
  · match t, h with
    | [c1, c2], h =>
      simp only [Bool.and_eq_true, Option.isSome_iff_exists] at h
      obtain ⟨⟨d1, hd1⟩, ⟨d2, hd2⟩⟩ := h
      simp only [tokenChars, List.isEmpty_cons, Bool.not_false, List.all_cons, List.all_nil,
        Bool.and_eq_true, Bool.not_eq_true']
      exact ⟨trivial, to_digit_16_not_ws c1 d1 hd1, to_digit_16_not_ws c2 d2 hd2, trivial⟩

lemma radixLoop_two_digits (c1 c2 : Char) (d1 d2 : Nat)
    (h1 : to_digit_16 c1 = some d1) (h2 : to_digit_16 c2 = some d2) :
    radixLoop [c1, c2] 0 = .ok (16 * d1 + d2) := by
  have b1 := to_digit_16_le c1 d1 h1
  have b2 := to_digit_16_le c2 d2 h2
  simp only [radixLoop, h1, h2]
  rw [if_neg (by omega), if_neg (by omega)]
  norm_num

lemma from_str_radix_two_digits (c1 c2 : Char) (d1 d2 : Nat)
    (h1 : to_digit_16 c1 = some d1) (h2 : to_digit_16 c2 = some d2) :
    from_str_radix_u8_16 [c1, c2] = .ok (16 * d1 + d2) := by
  have hplus : c1 ≠ '+' := by
    intro h
    subst h
    rw [show to_digit_16 '+' = none from by decide] at h1
    cases h1
  unfold from_str_radix_u8_16
  have := radixLoop_two_digits c1 c2 d1 d2 h1 h2
  split
  next he => cases he
  next he => cases he
  next rest he =>
    injection he with h3 h4
    exact absurd h3 hplus
  next => exact this

lemma compileToken_valid (t : List Char) (h : validToken t = true) :
    compileToken t = .ok (tokenValue t) := by
  simp only [validToken, Bool.or_eq_true, beq_iff_eq] at h
  rcases h with (h | h) | h
  · subst h
    decide
  · subst h
    decide
  · match t, h with
    | [c1, c2], h =>
      simp only [Bool.and_eq_true, Option.isSome_iff_exists] at h
      obtain ⟨⟨d1, hd1⟩, ⟨d2, hd2⟩⟩ := h
      have hne : ¬([c1, c2] = ['?'] ∨ [c1, c2] = ['?', '?']) := by
        rintro (h | h)
        · cases h
        · injection h with ha hb
          subst ha
          rw [qm_to_digit] at hd1
          cases hd1
      rw [compileToken, if_neg hne, if_neg (by simp), tokenValue, if_neg hne]
      rw [from_str_radix_two_digits c1 c2 d1 d2 hd1 hd2]
      simp [hd1, hd2]

lemma collectTokens_valid : ∀ (ts : List (List Char)),
    (∀ t ∈ ts, validToken t = true) →
    collectTokens ts = .ok (ts.map tokenValue) := by
  intro ts
  induction ts with
  | nil =>
    intro _
    rfl
  | cons t ts ih =>
    intro h
    rw [collectTokens, compileToken_valid t (h t (List.mem_cons_self _ _)),
      ih (fun u hu => h u (List.mem_cons_of_mem _ hu))]
    rfl

/-- C5.  Every pattern string built from valid tokens (2-digit hex bytes
and the wildcards `?`/`??`) joined by arbitrary whitespace -- any amount,
leading and trailing whitespace ignored -- compiles successfully to the
token-wise mask: one entry per token, `none` for each wildcard, the parsed
byte value for each hex token, in order. -/
theorem c5_compile_round_trip (lead : List Char) (pairs : List (List Char × List Char))
    (hlead : wsList lead = true) (hsep : sepOK pairs = true)
    (hvalid : ∀ p ∈ pairs, validToken p.1 = true) :
    create_bytes_from_string (lead ++ joinWS pairs) =
        .ok (pairs.map (fun p => tokenValue p.1)) ∧
      (pairs.map (fun p => tokenValue p.1)).length = pairs.length := by
  have hsplit := split_whitespace_join pairs lead hlead hsep
    (fun p hp => validToken_tokenChars p.1 (hvalid p hp))
  constructor
  · rw [create_bytes_from_string, hsplit,
      collectTokens_valid _ (fun t ht => by
        obtain ⟨p, hp, hpt⟩ := List.mem_map.1 ht
        exact hpt ▸ hvalid p hp)]
    rw [List.map_map]
    rfl
  · rw [List.length_map]

theorem c5_compile_round_trip_witness :
    create_bytes_from_string
        ([' '] ++ joinWS [(['A', 'A'], [' ']), (['?'], [' ', ' ']), (['3', '5'], [])]) =
        .ok ([(['A', 'A'], [' ']), (['?'], [' ', ' ']), (['3', '5'], [])].map
          (fun p => tokenValue p.1)) ∧
      ([(['A', 'A'], [' ']), (['?'], [' ', ' ']), (['3', '5'], [])].map
        (fun p => tokenValue p.1)).length =
        [(['A', 'A'], [' ']), (['?'], [' ', ' ']), (['3', '5'], [])].length :=
  c5_compile_round_trip [' ']
    [(['A', 'A'], [' ']), (['?'], [' ', ' ']), (['3', '5'], [])]
    (by decide) (by decide) (by decide)

lemma split_two_chars (c1 c2 : Char) (h1 : c1.isWhitespace = false)
    (h2 : c2.isWhitespace = false) : split_whitespace [c1, c2] = [[c1, c2]] := by
  simp [split_whitespace, split_whitespace_go, h1, h2]

/-- C6 counterexample.  The two-character token `+A` is not made of two
hexadecimal digits ('+' is no hex digit), yet it compiles successfully:
`u8::from_str_radix` accepts a leading '+' sign. -/
theorem c6_hex_token_cex :
    create_bytes_from_string ['+', 'A'] = .ok [some 10] ∧ to_digit_16 '+' = none := by
  exact ⟨by decide, by decide⟩

/-- C6 amended.  For a two-character non-wildcard token `[c1, c2]` (whole
pattern string, no whitespace): compilation succeeds if and only if both
characters are hex digits, or the token is a '+' sign followed by one hex
digit; in every other case it fails with an `InvalidByte` error.
(`(to_digit_16 c).isSome` says `c` is in `[0-9a-fA-F]`.) -/
theorem c6_hex_token_amended (c1 c2 : Char)
    (h1 : c1.isWhitespace = false) (h2 : c2.isWhitespace = false)
    (hw : ¬(c1 = '?' ∧ c2 = '?')) :
    ((∃ b, create_bytes_from_string [c1, c2] = .ok [some b]) ↔
      (((to_digit_16 c1).isSome = true ∧ (to_digit_16 c2).isSome = true) ∨
        (c1 = '+' ∧ (to_digit_16 c2).isSome = true))) ∧
      ((¬(((to_digit_16 c1).isSome = true ∧ (to_digit_16 c2).isSome = true) ∨
          (c1 = '+' ∧ (to_digit_16 c2).isSome = true))) →
        ∃ e, create_bytes_from_string [c1, c2] = .error (.InvalidByte e)) := by
  have hsplit := split_two_chars c1 c2 h1 h2
  have hne : ¬([c1, c2] = ['?'] ∨ [c1, c2] = ['?', '?']) := by
    rintro (h | h)
    · cases h
    · injection h with ha hb
      injection hb with hb _
      exact hw ⟨ha, hb⟩
  have hkey : ∀ (r : Except ParseIntError Nat), from_str_radix_u8_16 [c1, c2] = r →
      create_bytes_from_string [c1, c2] =
        (match r with
         | .ok b => .ok [some b]
         | .error e => .error (.InvalidByte e)) := by
    intro r hr
    rw [create_bytes_from_string, hsplit, collectTokens, compileToken, if_neg hne,
      if_neg (by simp), hr]
    cases r <;> rfl
  by_cases hplus : c1 = '+'
  · subst hplus
    cases hd2 : to_digit_16 c2 with
    | some d2 =>
      have hb2 := to_digit_16_le c2 d2 hd2
      have hr : from_str_radix_u8_16 ['+', c2] = .ok d2 := by
        show radixLoop [c2] 0 = .ok d2
        simp only [radixLoop, hd2]
        rw [if_neg (by omega)]
        norm_num [radixLoop]
      have hres := hkey _ hr
      constructor
      · constructor
        · intro _
          exact Or.inr ⟨rfl, rfl⟩
        · intro _
          exact ⟨d2, hres⟩
      · intro hcon
        exact absurd (Or.inr ⟨rfl, rfl⟩) hcon
    | none =>
      have hr : from_str_radix_u8_16 ['+', c2] = .error .invalidDigit := by
        show radixLoop [c2] 0 = .error .invalidDigit
        simp only [radixLoop, hd2]
      have hres := hkey _ hr
      constructor
      · constructor
        · rintro ⟨b, hb⟩
          rw [hres] at hb
          cases hb
        · rintro (⟨_, hb⟩ | ⟨_, hb⟩) <;> simp at hb
      · intro _
        exact ⟨.invalidDigit, hres⟩
  · have hstep : from_str_radix_u8_16 [c1, c2] = radixLoop [c1, c2] 0 := by
      unfold from_str_radix_u8_16
      split
      next he => cases he
      next he => cases he
      next rest he =>
        injection he with h3 _
        exact absurd h3 hplus
      next => rfl
    cases hd1 : to_digit_16 c1 with
    | none =>
      have hr : from_str_radix_u8_16 [c1, c2] = .error .invalidDigit := by
        rw [hstep]
        simp only [radixLoop, hd1]
      have hres := hkey _ hr
      constructor
      · constructor
        · rintro ⟨b, hb⟩
          rw [hres] at hb
          cases hb
        · rintro (⟨ha, _⟩ | ⟨ha, _⟩)
          · simp at ha
          · exact absurd ha hplus
      · intro _
        exact ⟨.invalidDigit, hres⟩
    | some d1 =>
      have hb1 := to_digit_16_le c1 d1 hd1
      cases hd2 : to_digit_16 c2 with
      | none =>
        have hr : from_str_radix_u8_16 [c1, c2] = .error .invalidDigit := by
          rw [hstep]
          simp only [radixLoop, hd1, hd2]
          rw [if_neg (by omega)]
        have hres := hkey _ hr
        constructor
        · constructor
          · rintro ⟨b, hb⟩
            rw [hres] at hb
            cases hb
          · rintro (⟨_, hb⟩ | ⟨_, hb⟩) <;> simp at hb
        · intro _
          exact ⟨.invalidDigit, hres⟩
      | some d2 =>
        have hres := hkey _ (from_str_radix_two_digits c1 c2 d1 d2 hd1 hd2)
        constructor
        · constructor
          · intro _
            exact Or.inl ⟨rfl, rfl⟩
          · intro _
            exact ⟨16 * d1 + d2, hres⟩
        · intro hcon
          exact absurd (Or.inl ⟨rfl, rfl⟩) hcon

theorem c6_hex_token_amended_witness :
    ((∃ b, create_bytes_from_string ['A', 'B'] = .ok [some b]) ↔
      (((to_digit_16 'A').isSome = true ∧ (to_digit_16 'B').isSome = true) ∨
        ('A' = '+' ∧ (to_digit_16 'B').isSome = true))) ∧
      ((¬(((to_digit_16 'A').isSome = true ∧ (to_digit_16 'B').isSome = true) ∨
          ('A' = '+' ∧ (to_digit_16 'B').isSome = true))) →
        ∃ e, create_bytes_from_string ['A', 'B'] = .error (.InvalidByte e)) :=
  c6_hex_token_amended 'A' 'B' (by decide) (by decide) (by decide)

lemma collectTokens_ok_mem : ∀ (ts : List (List Char)) (vs : List (Option Nat)),
    collectTokens ts = .ok vs → ∀ t ∈ ts, ∃ v, compileToken t = .ok v := by
  intro ts
  induction ts with
  | nil =>
    intro vs _ t ht
    cases ht
  | cons u ts ih =>
    intro vs h t ht
    rw [collectTokens] at h
    cases hu : compileToken u with
    | error e =>
      rw [hu] at h
      cases h
    | ok v =>
      rw [hu] at h
      dsimp only at h
      cases hts : collectTokens ts with
      | error e =>
        rw [hts] at h
        cases h
      | ok vs2 =>
        rcases List.mem_cons.1 ht with rfl | hmem
        · exact ⟨v, hu⟩
        · exact ih vs2 hts t hmem

lemma collectTokens_append_error : ∀ (ts1 : List (List Char)) (t : List Char)
    (ts2 : List (List Char)) (e : PatternScannerError),
    (∀ u ∈ ts1, ∃ v, compileToken u = .ok v) → compileToken t = .error e →
    collectTokens (ts1 ++ t :: ts2) = .error e := by
  intro ts1
  induction ts1 with
  | nil =>
    intro t ts2 e _ he
    rw [List.nil_append, collectTokens, he]
  | cons u ts1 ih =>
    intro t ts2 e hok he
    obtain ⟨v, hv⟩ := hok u (List.mem_cons_self _ _)
    rw [List.cons_append, collectTokens, hv]
    dsimp only
    rw [ih t ts2 e (fun x hx => hok x (List.mem_cons_of_mem _ hx)) he]

lemma compileToken_bad_length (t : List Char) (hw1 : t ≠ ['?']) (hw2 : t ≠ ['?', '?'])
    (hlen : t.length ≠ 2) : compileToken t = .error (.ByteLength t) := by
  rw [compileToken, if_neg (not_or.mpr ⟨hw1, hw2⟩), if_pos hlen]

/-- C7 counterexample.  The pattern `GG A` contains the non-wildcard
length-1 token `A`, yet compilation fails with an `InvalidByte` error (for
the earlier token `GG`), not with `ByteLengthError("A")` as the claim
states for every such pattern. -/
theorem c7_byte_length_cex :
    split_whitespace ("GG A".data) = [['G', 'G'], ['A']] ∧
      create_bytes_from_string ("GG A".data) = .error (.InvalidByte .invalidDigit) ∧
      resultIsByteLength (create_bytes_from_string ("GG A".data)) = false := by
  exact ⟨by decide, by decide, by decide⟩

/-- C7 amended.  A pattern containing a non-wildcard token whose length is
not 2 always fails to compile (so no scan starts), and when every token
before the offending one compiles, the error is `ByteLength` carrying that
token (an earlier failing token takes precedence and yields its own
error); in particular `A A BB` fails with `ByteLengthError("A")`. -/
theorem c7_byte_length_amended (pattern : List Char) (ts1 : List (List Char))
    (t : List Char) (ts2 : List (List Char))
    (hsplit : split_whitespace pattern = ts1 ++ t :: ts2)
    (hw1 : t ≠ ['?']) (hw2 : t ≠ ['?', '?']) (hlen : t.length ≠ 2) :
    (∃ e, create_bytes_from_string pattern = .error e) ∧
      ((∀ u ∈ ts1, ∃ v, compileToken u = .ok v) →
        create_bytes_from_string pattern = .error (.ByteLength t)) := by
  have hct := compileToken_bad_length t hw1 hw2 hlen
  constructor
  · cases hr : create_bytes_from_string pattern with
    | error e => exact ⟨e, rfl⟩
    | ok vs =>
      exfalso
      rw [create_bytes_from_string, hsplit] at hr
      obtain ⟨v, hv⟩ := collectTokens_ok_mem _ vs hr t (by simp)
      rw [hct] at hv
      cases hv
  · intro hok
    rw [create_bytes_from_string, hsplit]
    exact collectTokens_append_error ts1 t ts2 _ hok hct

theorem c7_byte_length_witness :
    create_bytes_from_string ("A A BB".data) = .error (.ByteLength ['A']) :=
  (c7_byte_length_amended ("A A BB".data) [] ['A'] [['A'], ['B', 'B']]
      (by decide) (by decide) (by decide) (by decide)).2 (by simp)

